import Mathlib

/-!
# ScreenFix core: shallow embedding and verification

ScreenFix is a screenshot-capture / task tool: a background capture daemon
writes screenshots to a Screenshot Store (`./screenfix/screenshots/`) and
appends task lines to a Task Ledger (`./screenfix/tasks/screenfix-tasks.md`),
and a tool server (plus slash-command templates) reads and completes those
tasks.  The repository ships the npm installer (`src/npm/lib/init.js`: init,
update, doctor, uninstall), the CLI entry point, and the slash-command
templates; the Python daemon / tool-server code is not part of the shipped
JS sources, so those operations are modelled from the specification where
noted, while everything that exists in the JS sources (the doctor's
daemon-status check, `.mcp.json` install/uninstall handling, and the task
marker format of `templates/commands/screenfix-tasks-next.md`) is embedded
directly from them.

Ledger lines are modelled as `List Char` so that "byte-identical" claims are
literal list equality.
-/

namespace ScreenFix

/-! ## Task Ledger

The ledger is a line-oriented text file.  From
`src/npm/templates/commands/screenfix-tasks-next.md`: a pending task is a
line with `- [ ]`, and completing it edits the file changing `- [ ]` to
`- [x]`; the line also contains the screenshot path and the instruction
text.  A line is a `List Char`; the ledger is the list of its lines. -/

abbrev Line := List Char

/-- The pending status marker `"- [ ] "` (marker plus the following space),
from `screenfix-tasks-next.md`. -/
def pendChars : Line := ['-', ' ', '[', ' ', ']', ' ']

/-- The done status marker `"- [x] "`, from `screenfix-tasks-next.md`. -/
def doneChars : Line := ['-', ' ', '[', 'x', ']', ' ']

/-- A parsed ledger entry: completion status and the rest of the line
(screenshot reference followed by the instruction text). -/
structure Task where
  status : Bool
  body : Line
deriving DecidableEq, Repr

/-- Modelled from the spec: the ledger parser of the Python tool server /
daemon is not in the shipped sources.  Spec §4.2: each line encodes status
via a fixed two-state marker (checked/unchecked) followed by the capture
reference and the instruction text; a line with an unparseable status
marker is skipped. -/
def parseLine (l : Line) : Option Task :=
  if l.take 6 = pendChars then some ⟨false, l.drop 6⟩
  else if l.take 6 = doneChars then some ⟨true, l.drop 6⟩
  else none

/-- A blank line: only spaces (or empty). -/
def isBlank (l : Line) : Bool := l.all (fun c => c = ' ')

/-- A well-formed ledger: every line is blank or parses as a task line. -/
def WellFormedLedger (L : List Line) : Prop :=
  ∀ l ∈ L, isBlank l = true ∨ (parseLine l).isSome

/-- Modelled from the spec: the daemon's ledger append is not in the shipped
sources.  Spec §4.2/§4.3: `append` adds one new pending line referencing the
just-created capture, carrying the instruction text. -/
def taskLine (p instr : Line) : Line := pendChars ++ p ++ ' ' :: instr

/-- Modelled from the spec: appending one task line at the end of the
ledger. -/
def appendTask (L : List Line) (p instr : Line) : List Line :=
  L ++ [taskLine p instr]

/-- A whole sequence of `append` calls, in order. -/
def appendAll (L : List Line) (ps : List (Line × Line)) : List Line :=
  ps.foldl (fun acc pr => appendTask acc pr.1 pr.2) L

/-- Modelled from the spec: `listTasks` parses the ledger top to bottom,
skipping malformed lines, optionally keeping only pending tasks. -/
def listTasks (pendingOnly : Bool) (L : List Line) : List Task :=
  (L.filterMap parseLine).filter (fun t => !pendingOnly || !t.status)

/-- Completion rewrite of a single line, from
`screenfix-tasks-next.md` step 4: change `- [ ]` to `- [x]`; any other
line is left untouched. -/
def completeLine (l : Line) : Line :=
  if l.take 6 = pendChars then doneChars ++ l.drop 6 else l

/-- Ledger errors surfaced by the tool server (spec §7). -/
inductive LedgerErr
  | notFound
deriving DecidableEq, Repr

/-- Modelled from the spec: `complete(taskId)` finds the task by its ledger
ordinal (position among parseable task lines), rewrites its status marker
from pending to done in place, succeeds without effect on an already-done
task, and fails with `NotFound` if no such task exists. -/
def complete : List Line → Nat → Except LedgerErr (List Line)
  | [], _ => .error .notFound
  | l :: rest, i =>
    match parseLine l with
    | some _ =>
      if i = 0 then .ok (completeLine l :: rest)
      else
        match complete rest (i - 1) with
        | .ok rest₁ => .ok (l :: rest₁)
        | .error e => .error e
    | none =>
      match complete rest i with
      | .ok rest₁ => .ok (l :: rest₁)
      | .error e => .error e

/-- The "next pending task" selection of
`screenfix-tasks-next.md` steps 1–2: the first line of the ledger carrying
the pending marker. -/
def nextPending (L : List Line) : Option Line :=
  L.find? (fun l => decide (l.take 6 = pendChars))

/-! ### Basic ledger lemmas -/

theorem parseLine_taskLine (p instr : Line) :
    parseLine (taskLine p instr) = some ⟨false, p ++ ' ' :: instr⟩ := by
  simp [parseLine, taskLine, pendChars, List.take]

theorem doneChars_ne_pendChars : doneChars ≠ pendChars := by decide

theorem take6_of_parse_pending {l : Line} {t : Task} (h : parseLine l = some t)
    (hs : t.status = false) : l.take 6 = pendChars := by
  by_cases h1 : l.take 6 = pendChars
  · exact h1
  · by_cases h2 : l.take 6 = doneChars
    · unfold parseLine at h
      rw [if_neg h1, if_pos h2] at h
      injection h with h
      rw [← h] at hs
      simp at hs
    · unfold parseLine at h
      rw [if_neg h1, if_neg h2] at h
      exact Option.noConfusion h

theorem parse_body {l : Line} {t : Task} (h : parseLine l = some t) :
    t.body = l.drop 6 := by
  by_cases h1 : l.take 6 = pendChars
  · unfold parseLine at h
    rw [if_pos h1] at h
    injection h with h
    rw [← h]
  · by_cases h2 : l.take 6 = doneChars
    · unfold parseLine at h
      rw [if_neg h1, if_pos h2] at h
      injection h with h
      rw [← h]
    · unfold parseLine at h
      rw [if_neg h1, if_neg h2] at h
      exact Option.noConfusion h

theorem completeLine_of_pending {l : Line} (h : l.take 6 = pendChars) :
    completeLine l = doneChars ++ l.drop 6 := by
  simp [completeLine, h]

theorem completeLine_of_not_pending {l : Line} (h : ¬ l.take 6 = pendChars) :
    completeLine l = l := by
  simp [completeLine, h]

theorem take6_doneChars_append (x : Line) :
    (doneChars ++ x).take 6 = doneChars := by
  simp [doneChars, List.take]

theorem drop6_doneChars_append (x : Line) :
    (doneChars ++ x).drop 6 = x := by
  have hlen : doneChars.length = 6 := by decide
  rw [← hlen, List.drop_left]

/-- Rewriting a line twice is the same as once: `completeLine` is idempotent. -/
theorem completeLine_idem (l : Line) :
    completeLine (completeLine l) = completeLine l := by
  by_cases h : l.take 6 = pendChars
  · rw [completeLine_of_pending h]
    apply completeLine_of_not_pending
    rw [take6_doneChars_append]
    exact doneChars_ne_pendChars
  · rw [completeLine_of_not_pending h, completeLine_of_not_pending h]

/-- Everything after the 6-character marker survives `completeLine` verbatim. -/
theorem completeLine_drop (l : Line) :
    (completeLine l).drop 6 = l.drop 6 := by
  by_cases h : l.take 6 = pendChars
  · rw [completeLine_of_pending h]
    have hlen : doneChars.length = 6 := by decide
    rw [← hlen, List.drop_left]
  · rw [completeLine_of_not_pending h]

/-- A line that parses still parses after `completeLine`, with the same
body, and as a done task. -/
theorem parseLine_completeLine {l : Line} {t : Task} (h : parseLine l = some t) :
    parseLine (completeLine l) = some ⟨true, t.body⟩ := by
  by_cases hp : l.take 6 = pendChars
  · rw [completeLine_of_pending hp]
    unfold parseLine
    rw [take6_doneChars_append, if_neg doneChars_ne_pendChars, if_pos rfl,
      drop6_doneChars_append, parse_body h]
  · rw [completeLine_of_not_pending hp]
    by_cases hd : l.take 6 = doneChars
    · unfold parseLine at h ⊢
      rw [if_neg hp, if_pos hd] at h ⊢
      injection h with h
      rw [← h]
    · unfold parseLine at h
      rw [if_neg hp, if_neg hd] at h
      exact Option.noConfusion h

theorem listTasks_false_eq (L : List Line) :
    listTasks false L = L.filterMap parseLine := by
  simp [listTasks]

theorem listTasks_false_append (L : List Line) (p instr : Line) :
    listTasks false (appendTask L p instr) =
      listTasks false L ++ [⟨false, p ++ ' ' :: instr⟩] := by
  simp [listTasks_false_eq, appendTask, List.filterMap_append, parseLine_taskLine]

theorem appendAll_cons (L : List Line) (pr : Line × Line) (ps : List (Line × Line)) :
    appendAll L (pr :: ps) = appendAll (appendTask L pr.1 pr.2) ps := rfl

/-- Append calls commute with listing: the appended tasks come back at the
end, in order, pending, with their screenshot reference and instruction. -/
theorem listTasks_appendAll (L : List Line) (ps : List (Line × Line)) :
    listTasks false (appendAll L ps) =
      listTasks false L ++ ps.map (fun pr => ⟨false, pr.1 ++ ' ' :: pr.2⟩) := by
  induction ps generalizing L with
  | nil => simp [appendAll]
  | cons pr ps ih =>
    rw [appendAll_cons, ih, listTasks_false_append]
    simp

/-- A successful `complete` changes exactly one line, by `completeLine`. -/
theorem complete_eq_set {L : List Line} {i : Nat} {L₁ : List Line}
    (h : complete L i = .ok L₁) :
    ∃ j, ∃ hj : j < L.length, L₁ = L.set j (completeLine (L.get ⟨j, hj⟩)) := by
  induction L generalizing i L₁ with
  | nil => simp [complete] at h
  | cons l rest ih =>
    cases hp : parseLine l with
    | some t =>
      simp only [complete, hp] at h
      by_cases hi : i = 0
      · subst hi
        simp only [if_pos rfl] at h
        injection h with h
        refine ⟨0, by simp, ?_⟩
        rw [← h]
        rfl
      · rw [if_neg hi] at h
        cases hc : complete rest (i - 1) with
        | ok rest₁ =>
          rw [hc] at h
          injection h with h
          obtain ⟨j, hj, hrest⟩ := ih hc
          refine ⟨j + 1, by simpa using hj, ?_⟩
          rw [← h, hrest]
          rfl
        | error e =>
          rw [hc] at h
          exact Except.noConfusion h
    | none =>
      simp only [complete, hp] at h
      cases hc : complete rest i with
      | ok rest₁ =>
        rw [hc] at h
        injection h with h
        obtain ⟨j, hj, hrest⟩ := ih hc
        refine ⟨j + 1, by simpa using hj, ?_⟩
        rw [← h, hrest]
        rfl
      | error e =>
        rw [hc] at h
        exact Except.noConfusion h

/-- Completion is idempotent: a second `complete` call with the same ordinal succeeds
and leaves the ledger unchanged. -/
theorem complete_complete {L : List Line} {i : Nat} {L₁ : List Line}
    (h : complete L i = .ok L₁) : complete L₁ i = .ok L₁ := by
  induction L generalizing i L₁ with
  | nil => simp [complete] at h
  | cons l rest ih =>
    cases hp : parseLine l with
    | some t =>
      simp only [complete, hp] at h
      by_cases hi : i = 0
      · subst hi
        simp only [if_pos rfl] at h
        injection h with h
        subst h
        have hp2 : parseLine (completeLine l) = some ⟨true, t.body⟩ :=
          parseLine_completeLine hp
        simp [complete, hp2, completeLine_idem]
      · rw [if_neg hi] at h
        cases hc : complete rest (i - 1) with
        | ok rest₁ =>
          rw [hc] at h
          injection h with h
          subst h
          simp [complete, hp, if_neg hi, ih hc]
        | error e =>
          rw [hc] at h
          exact Except.noConfusion h
    | none =>
      simp only [complete, hp] at h
      cases hc : complete rest i with
      | ok rest₁ =>
        rw [hc] at h
        injection h with h
        subst h
        simp [complete, hp, ih hc]
      | error e =>
        rw [hc] at h
        exact Except.noConfusion h

/-- The "first line with the pending marker" rule of
`screenfix-tasks-next.md` picks exactly the head of the pending-task
listing: priority order is file order. -/
theorem nextPending_eq_head {L : List Line} {t : Task} {ts : List Task}
    (h : listTasks true L = t :: ts) :
    nextPending L = some (pendChars ++ t.body) := by
  induction L with
  | nil => simp [listTasks] at h
  | cons l rest ih =>
    by_cases hp : l.take 6 = pendChars
    · have hparse : parseLine l = some ⟨false, l.drop 6⟩ := by
        unfold parseLine
        rw [if_pos hp]
      rw [listTasks] at h
      rw [List.filterMap_cons_some hparse] at h
      simp only [List.filter_cons] at h
      simp only [Bool.not_true, Bool.false_or, Bool.not_false, if_pos rfl] at h
      injection h with h1 h2
      rw [nextPending, List.find?_cons_of_pos _ (by simp [hp]), ← h1]
      have : l = l.take 6 ++ l.drop 6 := (List.take_append_drop 6 l).symm
      rw [hp] at this
      rw [← this]
    · have hnext : nextPending (l :: rest) = nextPending rest := by
        rw [nextPending, List.find?_cons_of_neg _ (by simp [hp]), nextPending]
      have hlist : listTasks true (l :: rest) = listTasks true rest := by
        cases hq : parseLine l with
        | some u =>
          have hu : u.status = true := by
            by_contra hfalse
            exact hp (take6_of_parse_pending hq (by simpa using hfalse))
          rw [listTasks, List.filterMap_cons_some hq, List.filter_cons]
          simp [hu, listTasks]
        | none =>
          rw [listTasks, List.filterMap_cons_none hq, listTasks]
      rw [hnext]
      rw [hlist] at h
      exact ih h

/-! ## Capture pipeline and system state

The daemon's capture pipeline (spec §4.3) is not in the shipped JS sources
(it lives in the Python package), so it is modelled from the spec: states
`Idle → Capturing → Annotating → Committing → Idle`, with capture failure
and annotation cancellation returning to `Idle` with no writes, and the
Committing step writing the image to the Screenshot Store first and only
then appending the ledger line. -/

/-- Raw image bytes. -/
abbrev Bytes := List Nat

/-- The shared on-disk state the two processes coordinate through:
the Screenshot Store (path ↦ image bytes, append-only) and the Task
Ledger (list of lines). -/
structure SysState where
  store : List (Line × Bytes)
  ledger : List Line
deriving DecidableEq, Repr

/-- Result of the capture capability (spec §4.3 `Capturing`). -/
inductive CaptureResult
  | failed
  | ok (bytes : Bytes)
deriving DecidableEq, Repr

/-- Result of the instruction-entry capability (spec §4.3 `Annotating`). -/
inductive AnnotResult
  | cancel
  | submit (instr : Line)
deriving DecidableEq, Repr

/-- Whether a filesystem write succeeds (spec §4.3 `Committing`). -/
inductive WriteResult
  | fail
  | okW
deriving DecidableEq, Repr

/-- Outcome of one pipeline run. -/
inductive PipelineOutcome
  | captureFailed
  | cancelled
  | imageWriteFailed
  | orphanWarning
  | committed
deriving DecidableEq, Repr

/-- Does a path already exist in the store? -/
def nameTaken (store : List (Line × Bytes)) (p : Line) : Bool :=
  store.any (fun e => e.1 == p)

/-- Decimal-digit suffix used to disambiguate colliding names. -/
def suffixChars (k : Nat) : Line := '-' :: (Nat.toDigits 10 k)

/-- Modelled from the spec: Screenshot Store naming (spec §4.1) is
deterministic from the capture time, appending a disambiguating suffix if
the time-derived name is taken.  The fuel argument bounds the search. -/
def freshNameAux (store : List (Line × Bytes)) (ts : Line) : Nat → Nat → Line
  | 0, k => ts ++ suffixChars k
  | fuel + 1, k =>
    let cand := if k = 0 then ts else ts ++ suffixChars k
    if nameTaken store cand then freshNameAux store ts fuel (k + 1) else cand

/-- Modelled from the spec: the collision-avoiding name for a capture
timestamp. -/
def freshName (store : List (Line × Bytes)) (ts : Line) : Line :=
  freshNameAux store ts (store.length + 1) 0

/-- Modelled from the spec: one run of the capture pipeline (spec §4.3),
from `Idle` back to `Idle`.  `cap` is what the capture capability returns,
`ann` what the annotation popup returns, `imgW`/`ledW` whether the image
write and the ledger append succeed.  The image is persisted to the
Screenshot Store before the ledger append is attempted; if the image write
fails the append does not occur; if the append fails the orphaned image
stays (non-fatal warning). -/
def runPipeline (s : SysState) (cap : CaptureResult) (ann : AnnotResult)
    (imgW ledW : WriteResult) (ts : Line) : SysState × PipelineOutcome :=
  match cap with
  | .failed => (s, .captureFailed)
  | .ok bytes =>
    match ann with
    | .cancel => (s, .cancelled)
    | .submit instr =>
      match imgW with
      | .fail => (s, .imageWriteFailed)
      | .okW =>
        let p := freshName s.store ts
        let store₁ := s.store ++ [(p, bytes)]
        match ledW with
        | .fail => (⟨store₁, s.ledger⟩, .orphanWarning)
        | .okW => (⟨store₁, appendTask s.ledger p instr⟩, .committed)

/-- States reachable from the initial empty state through the two writers:
the daemon's pipeline runs and the tool server's `complete` calls. -/
inductive Reachable : SysState → Prop
  | init : Reachable ⟨[], []⟩
  | pipeline {s : SysState} (cap : CaptureResult) (ann : AnnotResult)
      (imgW ledW : WriteResult) (ts : Line) :
      Reachable s → Reachable (runPipeline s cap ann imgW ledW ts).1
  | completeStep {s : SysState} {i : Nat} {L₁ : List Line} :
      Reachable s → complete s.ledger i = .ok L₁ →
      Reachable ⟨s.store, L₁⟩

/-- A ledger line is backed: it is a task line (marker, screenshot
reference, instruction) whose referenced path exists in the Screenshot
Store. -/
def LineBacked (store : List (Line × Bytes)) (l : Line) : Prop :=
  ∃ p instr, (l = pendChars ++ p ++ ' ' :: instr ∨ l = doneChars ++ p ++ ' ' :: instr) ∧
    ∃ b, (p, b) ∈ store

/-- The cross-store invariant: every ledger line references a stored
image. -/
def Inv (s : SysState) : Prop :=
  ∀ l ∈ s.ledger, LineBacked s.store l

theorem lineBacked_mono {store store' : List (Line × Bytes)} {l : Line}
    (hsub : ∀ e ∈ store, e ∈ store') (h : LineBacked store l) :
    LineBacked store' l := by
  obtain ⟨p, instr, hform, b, hmem⟩ := h
  exact ⟨p, instr, hform, b, hsub _ hmem⟩

theorem lineBacked_completeLine {store : List (Line × Bytes)} {l : Line}
    (h : LineBacked store l) : LineBacked store (completeLine l) := by
  obtain ⟨p, instr, hform, b, hmem⟩ := h
  rcases hform with hform | hform
  · have hp : l.take 6 = pendChars := by
      rw [hform, List.append_assoc]
      have h6 : pendChars.length = 6 := by decide
      rw [← h6, List.take_left]
    have hdrop : l.drop 6 = p ++ ' ' :: instr := by
      rw [hform, List.append_assoc]
      have h6 : pendChars.length = 6 := by decide
      rw [← h6, List.drop_left]
    rw [completeLine_of_pending hp, hdrop]
    exact ⟨p, instr, Or.inr (List.append_assoc _ _ _).symm, b, hmem⟩
  · have hd : l.take 6 = doneChars := by
      rw [hform, List.append_assoc, take6_doneChars_append]
    rw [completeLine_of_not_pending (by rw [hd]; exact doneChars_ne_pendChars)]
    exact ⟨p, instr, Or.inr hform, b, hmem⟩

/-- The invariant is preserved by one pipeline run. -/
theorem inv_runPipeline {s : SysState} (hs : Inv s) (cap : CaptureResult)
    (ann : AnnotResult) (imgW ledW : WriteResult) (ts : Line) :
    Inv (runPipeline s cap ann imgW ledW ts).1 := by
  cases cap with
  | failed => exact hs
  | ok bytes =>
    cases ann with
    | cancel => exact hs
    | submit instr =>
      cases imgW with
      | fail => exact hs
      | okW =>
        cases ledW with
        | fail =>
          intro l hl
          exact lineBacked_mono (fun e he => List.mem_append_left _ he) (hs l hl)
        | okW =>
          intro l hl
          simp only [runPipeline, appendTask] at hl
          rcases List.mem_append.mp hl with hl | hl
          · exact lineBacked_mono (fun e he => List.mem_append_left _ he) (hs l hl)
          · rcases List.mem_singleton.mp hl with rfl
            refine ⟨freshName s.store ts, instr, Or.inl ?_, bytes, ?_⟩
            · rw [taskLine]
            · exact List.mem_append_right _ (List.mem_singleton.mpr rfl)

/-- The invariant is preserved by a successful `complete`. -/
theorem inv_complete {s : SysState} {i : Nat} {L₁ : List Line}
    (hs : Inv s) (h : complete s.ledger i = .ok L₁) :
    Inv ⟨s.store, L₁⟩ := by
  obtain ⟨j, hj, hset⟩ := complete_eq_set h
  intro l hl
  rw [hset] at hl
  rcases List.mem_or_eq_of_mem_set hl with hmem | rfl
  · exact hs l hmem
  · exact lineBacked_completeLine (hs _ (List.get_mem _ _ hj))

/-- Every reachable state satisfies the backing invariant. -/
theorem reachable_inv {s : SysState} (h : Reachable s) : Inv s := by
  induction h with
  | init => intro l hl; exact absurd hl (List.not_mem_nil l)
  | pipeline cap ann imgW ledW ts _ ih => exact inv_runPipeline ih cap ann imgW ledW ts
  | completeStep _ hc ih => exact inv_complete ih hc

/-! ## Daemon State Record and the doctor's status check

`src/npm/lib/init.js` (doctor): the daemon state is read from
`os.homedir() + "/.config/screenfix/state.json"`; if the file is missing
the check reports `Not running`; otherwise the parsed record's `listening`
field alone decides between `Running (PID: <pid>)` and `Not running`.  No
OS process probe is made. -/

/-- The parsed Daemon State Record (spec §3 / §6): `listening`, `pid`, and
the last-heartbeat time. -/
structure DaemonState where
  listening : Bool
  pid : Nat
  lastHeartbeat : Nat
deriving DecidableEq, Repr

/-- The fixed per-user path the doctor reads, from `init.js`:
`path.join(os.homedir(), ".config", "screenfix", "state.json")`.  It is a
function of the user's home directory only — no project path enters it. -/
def doctorStatePath (home : String) : String :=
  home ++ "/.config/screenfix/state.json"

/-- Modelled from the spec: the daemon's writer side is in the Python
package, not in the shipped JS sources.  Spec §6: the record lives at a
fixed path outside the project tree (per-user location); the daemon writes
to the same well-known location the readers read. -/
def daemonStatePath (home : String) : String :=
  home ++ "/.config/screenfix/state.json"

/-- Modelled from the spec: every update overwrites the whole record
("overwritten wholesale on each update", spec §6): the previous file
content is irrelevant. -/
def writeStateRecord (_prev : Option DaemonState) (r : DaemonState) :
    Option DaemonState :=
  some r

/-- The doctor's `Daemon status` check from `src/npm/lib/init.js` lines
325–335, as a function of the (parsed) state-file content.  `none` is a
missing state file. -/
def doctorDaemonStatus (record : Option DaemonState) : String :=
  match record with
  | none => "Not running"
  | some st =>
    if st.listening then "Running (PID: " ++ toString st.pid ++ ")"
    else "Not running"

/-- Modelled from the spec: the tool server's `getStatus` handler (Python
`screenfix.mcp_server`, not in the shipped JS sources).  Spec §4.4:
`getStatus() -> {listening, pid}` reads the Daemon State Record as-is and
does not itself verify process liveness. -/
def getStatus (record : DaemonState) : Bool × Nat :=
  (record.listening, record.pid)

/-! ## `.mcp.json` handling (installer)

From `src/npm/lib/init.js`: `copyMcpConfig` (lines 80–108) and
`uninstall`'s `.mcp.json` section (lines 378–397).  A parsed `.mcp.json`
is a JS object: the `mcpServers` key (possibly absent) maps server names
to server configurations, and any other top-level keys are carried along
untouched (modelled as opaque key/value pairs). -/

/-- One MCP server configuration entry. -/
structure ServerCfg where
  kind : String
  command : String
  args : List String
deriving DecidableEq, Repr

/-- A parsed `.mcp.json`: the `mcpServers` object (in key order; `none`
when the key is absent) plus all other top-level keys (opaque values). -/
structure McpConfig where
  otherKeys : List (String × String)
  mcpServers : Option (List (String × ServerCfg))
deriving DecidableEq, Repr

/-- The screenfix entry written by `copyMcpConfig`:
`{ type: "stdio", command: "python3", args: ["-m", "screenfix.mcp_server"] }`. -/
def screenfixServerCfg : ServerCfg :=
  ⟨"stdio", "python3", ["-m", "screenfix.mcp_server"]⟩

/-- JS object property assignment `obj[k] = v`: replaces the value in
place if the key exists, otherwise adds the key at the end. -/
def jsSet (sv : List (String × ServerCfg)) (k : String) (v : ServerCfg) :
    List (String × ServerCfg) :=
  if sv.any (fun e => e.1 == k) then
    sv.map (fun e => if e.1 == k then (k, v) else e)
  else sv ++ [(k, v)]

/-- The `copyMcpConfig` function of `init.js` lines 80–108: when `.mcp.json` exists it
is parsed, `mcpServers` is defaulted to `{}` if absent, the `screenfix`
entry is assigned, and the result written back (merge); when it does not
exist a fresh config holding exactly the screenfix entry is written. -/
def copyMcpConfig : Option McpConfig → McpConfig
  | none => ⟨[], some [("screenfix", screenfixServerCfg)]⟩
  | some existing =>
    { existing with
      mcpServers := some (jsSet (existing.mcpServers.getD []) "screenfix" screenfixServerCfg) }

/-- The `.mcp.json` section of `uninstall`, `init.js` lines 378–397: if the
file exists and `mcpServers.screenfix` is present, the entry is deleted;
then if no servers remain the file itself is removed, otherwise the pruned
config is written back.  With no screenfix entry (or no file) nothing
changes. -/
def uninstallMcp : Option McpConfig → Option McpConfig
  | none => none
  | some cfg =>
    match cfg.mcpServers with
    | none => some cfg
    | some sv =>
      if sv.any (fun e => e.1 == "screenfix") then
        let sv₁ := sv.filter (fun e => e.1 != "screenfix")
        if sv₁ = [] then none
        else some { cfg with mcpServers := some sv₁ }
      else some cfg

/-! ### `.mcp.json` lemmas -/

theorem jsSet_mem_self (sv : List (String × ServerCfg)) (k : String) (v : ServerCfg) :
    (k, v) ∈ jsSet sv k v := by
  unfold jsSet
  by_cases h : sv.any (fun e => e.1 == k)
  · rw [if_pos h]
    obtain ⟨e, hmem, he⟩ := List.any_eq_true.mp h
    refine List.mem_map.mpr ⟨e, hmem, ?_⟩
    rw [if_pos he]
  · rw [if_neg h]
    exact List.mem_append_right _ (List.mem_singleton.mpr rfl)

theorem jsSet_mem_key {sv : List (String × ServerCfg)} {k : String} {v : ServerCfg}
    {e : String × ServerCfg} (hmem : e ∈ jsSet sv k v) (hk : e.1 = k) :
    e.2 = v := by
  unfold jsSet at hmem
  by_cases h : sv.any (fun e => e.1 == k)
  · rw [if_pos h] at hmem
    obtain ⟨u, humem, hue⟩ := List.mem_map.mp hmem
    by_cases hu : u.1 == k
    · rw [if_pos hu] at hue
      rw [← hue]
    · rw [if_neg hu] at hue
      subst hue
      exact absurd (by simp [hk]) hu
  · rw [if_neg h] at hmem
    rcases List.mem_append.mp hmem with hmem | hmem
    · exact absurd (List.any_eq_true.mpr ⟨e, hmem, by simp [hk]⟩) h
    · rw [List.mem_singleton.mp hmem]

theorem jsSet_mem_other {sv : List (String × ServerCfg)} {k : String} {v : ServerCfg}
    {e : String × ServerCfg} (hk : e.1 ≠ k) :
    e ∈ jsSet sv k v ↔ e ∈ sv := by
  unfold jsSet
  by_cases h : sv.any (fun e => e.1 == k)
  · rw [if_pos h]
    constructor
    · intro hmem
      obtain ⟨u, humem, hue⟩ := List.mem_map.mp hmem
      by_cases hu : u.1 == k
      · rw [if_pos hu] at hue
        exact absurd (by rw [← hue]) hk
      · rw [if_neg hu] at hue
        subst hue
        exact humem
    · intro hmem
      refine List.mem_map.mpr ⟨e, hmem, ?_⟩
      rw [if_neg (by simpa using hk)]
  · rw [if_neg h]
    constructor
    · intro hmem
      rcases List.mem_append.mp hmem with hmem | hmem
      · exact hmem
      · exact absurd (congrArg Prod.fst (List.mem_singleton.mp hmem)) hk
    · exact fun hmem => List.mem_append_left _ hmem

/-! ## Claim theorems -/

/-- C1: in the Committing step the image write comes first: if the image
write fails, the pipeline leaves both stores untouched (in particular no
ledger append occurs); and in every reachable state, every Task line of
the ledger references an image path that exists in the Screenshot Store
(a ledger entry with no backing image never occurs). -/
theorem claim_C1_commit_order_and_backing :
    (∀ (s : SysState) (cap : CaptureResult) (ann : AnnotResult)
        (ledW : WriteResult) (ts : Line),
      (runPipeline s cap ann .fail ledW ts).1 = s) ∧
    (∀ s : SysState, Reachable s → ∀ l ∈ s.ledger, LineBacked s.store l) := by
  constructor
  · intro s cap ann ledW ts
    cases cap with
    | failed => rfl
    | ok bytes =>
      cases ann with
      | cancel => rfl
      | submit instr => rfl
  · intro s hs
    exact reachable_inv hs

theorem claim_C1_witness :
    LineBacked
      ((runPipeline ⟨[], []⟩ (.ok [7]) (.submit ['f', 'i', 'x']) .okW .okW ['t', 's']).1).store
      (taskLine ['t', 's'] ['f', 'i', 'x']) :=
  claim_C1_commit_order_and_backing.2 _
    (Reachable.pipeline (.ok [7]) (.submit ['f', 'i', 'x']) .okW .okW ['t', 's'] Reachable.init)
    _ (by decide)

/-- C2: starting from any well-formed ledger, any finite sequence of append
calls makes `listTasks (pendingOnly := false)` return the prior tasks
followed by the appended tasks in exactly append order — none dropped,
none duplicated. -/
theorem claim_C2_append_order (L₀ : List Line) (hwf : WellFormedLedger L₀)
    (ps : List (Line × Line)) :
    listTasks false (appendAll L₀ ps) =
      listTasks false L₀ ++ ps.map (fun pr => ⟨false, pr.1 ++ ' ' :: pr.2⟩) :=
  listTasks_appendAll L₀ ps

theorem claim_C2_witness :
    listTasks false (appendAll [taskLine ['a'] ['x']] [(['p'], ['q']), (['r'], ['s'])]) =
      listTasks false [taskLine ['a'] ['x']] ++
        List.map (fun pr => ⟨false, pr.1 ++ ' ' :: pr.2⟩) [(['p'], ['q']), (['r'], ['s'])] :=
  claim_C2_append_order [taskLine ['a'] ['x']]
    (by unfold WellFormedLedger; decide) [(['p'], ['q']), (['r'], ['s'])]

/-- C3: completing a task id present in the ledger is idempotent — the
second call succeeds and returns the identical ledger — and each call
rewrites at most one line: every other line is byte-identical, the
targeted line is rewritten by `completeLine`, which preserves everything
after the 6-character marker verbatim and turns a pending marker into the
done marker. -/
theorem claim_C3_complete_idempotent (L : List Line) (i : Nat) (L₁ : List Line)
    (h : complete L i = .ok L₁) :
    complete L₁ i = .ok L₁ ∧
    ∃ j, ∃ hj : j < L.length,
      L₁ = L.set j (completeLine (L.get ⟨j, hj⟩)) ∧
      (completeLine (L.get ⟨j, hj⟩)).drop 6 = (L.get ⟨j, hj⟩).drop 6 ∧
      ((L.get ⟨j, hj⟩).take 6 = pendChars →
        completeLine (L.get ⟨j, hj⟩) = doneChars ++ (L.get ⟨j, hj⟩).drop 6) := by
  refine ⟨complete_complete h, ?_⟩
  obtain ⟨j, hj, hset⟩ := complete_eq_set h
  exact ⟨j, hj, hset, completeLine_drop _, fun hp => completeLine_of_pending hp⟩

theorem claim_C3_witness :
    complete [['-', ' ', '[', 'x', ']', ' ', 'a', ' ', 'b']] 0 =
      .ok [['-', ' ', '[', 'x', ']', ' ', 'a', ' ', 'b']] ∧
    ∃ j, ∃ hj : j < [['-', ' ', '[', ' ', ']', ' ', 'a', ' ', 'b']].length,
      ([['-', ' ', '[', 'x', ']', ' ', 'a', ' ', 'b']] : List Line) =
        [['-', ' ', '[', ' ', ']', ' ', 'a', ' ', 'b']].set j
          (completeLine ([['-', ' ', '[', ' ', ']', ' ', 'a', ' ', 'b']].get ⟨j, hj⟩)) ∧
      (completeLine ([['-', ' ', '[', ' ', ']', ' ', 'a', ' ', 'b']].get ⟨j, hj⟩)).drop 6 =
        ([['-', ' ', '[', ' ', ']', ' ', 'a', ' ', 'b']].get ⟨j, hj⟩).drop 6 ∧
      (([['-', ' ', '[', ' ', ']', ' ', 'a', ' ', 'b']].get ⟨j, hj⟩).take 6 = pendChars →
        completeLine ([['-', ' ', '[', ' ', ']', ' ', 'a', ' ', 'b']].get ⟨j, hj⟩) =
          doneChars ++ ([['-', ' ', '[', ' ', ']', ' ', 'a', ' ', 'b']].get ⟨j, hj⟩).drop 6) :=
  claim_C3_complete_idempotent [['-', ' ', '[', ' ', ']', ' ', 'a', ' ', 'b']] 0
    [['-', ' ', '[', 'x', ']', ' ', 'a', ' ', 'b']] (by rfl)

/-- C4: the status query reports the Daemon State Record exactly as stored:
`getStatus` returns the recorded listening flag and pid as-is, and the
doctor's daemon-status check reports `Running (PID: …)` for any record
with `listening = true` — even when no live OS process has the recorded
pid (`alive st.pid = false`), since neither consults process liveness. -/
theorem claim_C4_status_as_recorded (st : DaemonState) (alive : Nat → Bool)
    (hlisten : st.listening = true) (hdead : alive st.pid = false) :
    getStatus st = (st.listening, st.pid) ∧
    doctorDaemonStatus (some st) = "Running (PID: " ++ toString st.pid ++ ")" := by
  refine ⟨rfl, ?_⟩
  simp [doctorDaemonStatus, hlisten]

theorem claim_C4_witness :
    getStatus ⟨true, 4242, 7⟩ =
      ((⟨true, 4242, 7⟩ : DaemonState).listening, (⟨true, 4242, 7⟩ : DaemonState).pid) ∧
    doctorDaemonStatus (some ⟨true, 4242, 7⟩) =
      "Running (PID: " ++ toString (⟨true, 4242, 7⟩ : DaemonState).pid ++ ")" :=
  claim_C4_status_as_recorded ⟨true, 4242, 7⟩ (fun _ => false) rfl rfl

/-- C5: a capture cancelled during the Annotating state returns to Idle
with the Screenshot Store and Task Ledger byte-identical to their
pre-capture state: no image written, no ledger line appended. -/
theorem claim_C5_cancel_no_effect (s : SysState) (bytes : Bytes)
    (imgW ledW : WriteResult) (ts : Line) :
    runPipeline s (.ok bytes) .cancel imgW ledW ts = (s, .cancelled) := rfl

/-- C6: in every reachable state, every ledger content line consists of the
fixed two-state marker (unchecked `- [ ]` pending, checked `- [x]` done),
a screenshot path reference, and trailing instruction text; and the
completion toggle rewrites only the marker: it maps the pending marker to
the done marker, preserves everything after the 6-character marker
verbatim, and leaves non-pending lines untouched. -/
theorem claim_C6_line_format (s : SysState) (hreach : Reachable s) :
    (∀ l ∈ s.ledger,
      ∃ p instr, l = pendChars ++ p ++ ' ' :: instr ∨ l = doneChars ++ p ++ ' ' :: instr) ∧
    (∀ l : Line, l.take 6 = pendChars → completeLine l = doneChars ++ l.drop 6) ∧
    (∀ l : Line, (completeLine l).drop 6 = l.drop 6) ∧
    (∀ l : Line, ¬ l.take 6 = pendChars → completeLine l = l) := by
  refine ⟨?_, fun l hp => completeLine_of_pending hp, completeLine_drop,
    fun l hp => completeLine_of_not_pending hp⟩
  intro l hl
  obtain ⟨p, instr, hform, _⟩ := reachable_inv hreach l hl
  exact ⟨p, instr, hform⟩

theorem claim_C6_witness :
    ∃ p instr,
      taskLine ['u'] ['g', 'o'] = pendChars ++ p ++ ' ' :: instr ∨
      taskLine ['u'] ['g', 'o'] = doneChars ++ p ++ ' ' :: instr :=
  (claim_C6_line_format
      ((runPipeline ⟨[], []⟩ (.ok [9]) (.submit ['g', 'o']) .okW .okW ['u']).1)
      (Reachable.pipeline (.ok [9]) (.submit ['g', 'o']) .okW .okW ['u'] Reachable.init)).1
    (taskLine ['u'] ['g', 'o']) (by decide)

/-- C7: for a ledger containing at least one pending task, the
next-pending-task rule of `screenfix-tasks-next.md` (first line carrying
the pending marker) selects exactly the pending task whose line occurs
first in file order — the head of the pending-task listing, so priority
order is ledger line order. -/
theorem claim_C7_next_pending_first (L : List Line) (t : Task) (ts : List Task)
    (h : listTasks true L = t :: ts) :
    nextPending L = some (pendChars ++ t.body) :=
  nextPending_eq_head h

theorem claim_C7_witness :
    nextPending
      [['-', ' ', '[', 'x', ']', ' ', 'a'], ['-', ' ', '[', ' ', ']', ' ', 'b'],
        ['-', ' ', '[', ' ', ']', ' ', 'c']] =
      some (pendChars ++ (⟨false, ['b']⟩ : Task).body) :=
  claim_C7_next_pending_first
    [['-', ' ', '[', 'x', ']', ' ', 'a'], ['-', ' ', '[', ' ', ']', ' ', 'b'],
      ['-', ' ', '[', ' ', ']', ' ', 'c']]
    ⟨false, ['b']⟩ [⟨false, ['c']⟩] (by decide)

/-- C8: the Daemon State Record is a single structured record with fields
`listening`, `pid`, and a heartbeat time; the daemon's write path and the
doctor's read path are the same fixed per-user location (a function of the
home directory only, outside any project tree), and every update
overwrites the whole record, irrespective of the previous content. -/
theorem claim_C8_state_record (home : String) (prev prev' : Option DaemonState)
    (r : DaemonState) :
    daemonStatePath home = doctorStatePath home ∧
    writeStateRecord prev r = some r ∧
    writeStateRecord prev r = writeStateRecord prev' r ∧
    r = ⟨r.listening, r.pid, r.lastHeartbeat⟩ :=
  ⟨rfl, rfl, rfl, rfl⟩

/-- C9: `uninstall` removes only the screenfix entry from `mcpServers`:
every other server entry is preserved (and nothing but screenfix entries
is removed, with all other top-level keys kept), and the `.mcp.json` file
itself is deleted exactly when a screenfix entry was present and no other
server entries remain after its removal. -/
theorem claim_C9_uninstall_prunes_only_screenfix (cfg : McpConfig)
    (sv : List (String × ServerCfg)) (hsv : cfg.mcpServers = some sv) :
    uninstallMcp (some cfg) =
      (if (sv.any (fun e => e.1 == "screenfix")) = true ∧
          sv.filter (fun e => e.1 != "screenfix") = []
       then none
       else some { cfg with mcpServers := some (sv.filter (fun e => e.1 != "screenfix")) }) ∧
    (∀ e ∈ sv, e.1 ≠ "screenfix" → e ∈ sv.filter (fun e => e.1 != "screenfix")) ∧
    (∀ e ∈ sv.filter (fun e => e.1 != "screenfix"), e ∈ sv ∧ e.1 ≠ "screenfix") := by
  refine ⟨?_, ?_, ?_⟩
  · obtain ⟨ok, mcp⟩ := cfg
    change mcp = some sv at hsv
    subst hsv
    simp only [uninstallMcp]
    by_cases hscr : (sv.any (fun e => e.1 == "screenfix")) = true
    · rw [if_pos hscr]
      by_cases hfil : sv.filter (fun e => e.1 != "screenfix") = []
      · rw [if_pos hfil, if_pos ⟨hscr, hfil⟩]
      · rw [if_neg hfil, if_neg (fun hand => hfil hand.2)]
    · rw [if_neg hscr, if_neg (fun hand => hscr hand.1)]
      have hfil : sv.filter (fun e => e.1 != "screenfix") = sv := by
        refine List.filter_eq_self.mpr fun e he => ?_
        simp only [bne_iff_ne, ne_eq, decide_eq_true_eq]
        intro heq
        exact hscr (List.any_eq_true.mpr ⟨e, he, by simp [heq]⟩)
      rw [hfil]
  · intro e he hne
    exact List.mem_filter.mpr ⟨he, by simpa using hne⟩
  · intro e he
    have h := List.mem_filter.mp he
    exact ⟨h.1, by simpa using h.2⟩

theorem claim_C9_witness :
    uninstallMcp
      (some ⟨[("version", "1")],
        some [("screenfix", screenfixServerCfg), ("otherix", ⟨"stdio", "cmd", []⟩)]⟩) =
      some ⟨[("version", "1")], some [("otherix", ⟨"stdio", "cmd", []⟩)]⟩ := by
  have h := (claim_C9_uninstall_prunes_only_screenfix
    ⟨[("version", "1")],
      some [("screenfix", screenfixServerCfg), ("otherix", ⟨"stdio", "cmd", []⟩)]⟩
    [("screenfix", screenfixServerCfg), ("otherix", ⟨"stdio", "cmd", []⟩)] rfl).1
  rw [h]
  rfl

/-- C10: `copyMcpConfig` merges rather than replaces: with no existing
`.mcp.json` it creates exactly the single screenfix entry; with an
existing one, all other top-level keys are preserved, every non-screenfix
server entry is preserved, and the screenfix entry is set (overwriting any
prior one) to the stdio `python3 -m screenfix.mcp_server` configuration. -/
theorem claim_C10_copy_mcp_merges :
    copyMcpConfig none = ⟨[], some [("screenfix", screenfixServerCfg)]⟩ ∧
    (∀ cfg : McpConfig, (copyMcpConfig (some cfg)).otherKeys = cfg.otherKeys) ∧
    (∀ (cfg : McpConfig) (sv : List (String × ServerCfg)), cfg.mcpServers = some sv →
      ∃ sv₁, (copyMcpConfig (some cfg)).mcpServers = some sv₁ ∧
        ("screenfix", screenfixServerCfg) ∈ sv₁ ∧
        (∀ e ∈ sv₁, e.1 = "screenfix" → e.2 = screenfixServerCfg) ∧
        (∀ e : String × ServerCfg, e.1 ≠ "screenfix" → (e ∈ sv₁ ↔ e ∈ sv))) := by
  refine ⟨rfl, fun cfg => rfl, ?_⟩
  intro cfg sv hsv
  refine ⟨jsSet sv "screenfix" screenfixServerCfg, ?_, jsSet_mem_self sv _ _,
    fun e he hk => jsSet_mem_key he hk, fun e hk => jsSet_mem_other hk⟩
  show some (jsSet (cfg.mcpServers.getD []) "screenfix" screenfixServerCfg) = _
  rw [hsv]
  rfl

theorem claim_C10_witness :
    ∃ sv₁,
      (copyMcpConfig
        (some ⟨[("note", "keep")],
          some [("screenfix", ⟨"old", "oldcmd", ["x"]⟩), ("keeper", ⟨"stdio", "k", []⟩)]⟩)).mcpServers =
        some sv₁ ∧
      ("screenfix", screenfixServerCfg) ∈ sv₁ ∧
      (∀ e ∈ sv₁, e.1 = "screenfix" → e.2 = screenfixServerCfg) ∧
      (∀ e : String × ServerCfg, e.1 ≠ "screenfix" →
        (e ∈ sv₁ ↔ e ∈ [("screenfix", ⟨"old", "oldcmd", ["x"]⟩), ("keeper", ⟨"stdio", "k", []⟩)])) :=
  claim_C10_copy_mcp_merges.2.2
    ⟨[("note", "keep")],
      some [("screenfix", ⟨"old", "oldcmd", ["x"]⟩), ("keeper", ⟨"stdio", "k", []⟩)]⟩
    [("screenfix", ⟨"old", "oldcmd", ["x"]⟩), ("keeper", ⟨"stdio", "k", []⟩)] rfl
